import Mathlib

/-!
Verification of the Malbolge Unshackled interpreter core (`src/unshackled.c`)
against its natural-language specification.

The C `Number` (a trinary number of unbounded width) is embedded shallowly:
the cyclic doubly-linked list of trits becomes a `List Nat` ordered from the
least-significant trit (position 0) upward, `head` is the trit implicitly
filling every position beyond the explicit tail, and the two caches keep the
source's sentinel conventions (`memptr = none` for "to be computed";
`unicode = -1` for "not a codepoint", `-2` for "to be computed").
-/

set_option maxRecDepth 10000
set_option maxHeartbeats 1000000

namespace Unshackled

/-- Shallow embedding of `struct Number`.  `tail` lists the explicit trits
from position 0 (least significant) upward; in the C representation this is
the cyclic list entered at `n->tail` and traversed through `left` pointers,
and `width` is `tail.length`.  `memptr` holds the cached memory-cell id. -/
structure Number where
  head : Nat
  tail : List Nat
  memptr : Option Nat
  unicode : Int
  deriving DecidableEq, Repr

/-- The trit of `n` at position `i` of the conceptual infinite stream:
the explicit tail where present, the head trit beyond it. -/
def tritAt (n : Number) (i : Nat) : Nat :=
  n.tail.getD i n.head

/-- Two numbers are value-equal when their heads match and their trit
sequences extended infinitely with the head agree (spec, section 3). -/
def valEq (m n : Number) : Prop :=
  m.head = n.head ∧ ∀ i, tritAt m i = tritAt n i

/-- Every trit of the representation (tail and head) lies in `{0,1,2}`;
an invariant of all numbers the interpreter builds. -/
def ValidNumber (n : Number) : Prop :=
  n.head < 3 ∧ ∀ t ∈ n.tail, t < 3

instance (n : Number) : Decidable (ValidNumber n) := by
  unfold ValidNumber; infer_instance

/-- Value of the first `w` positions of the trit stream with head `h` and
explicit tail `ts`: `∑_{i<w} trit_i·3^i`. -/
def truncS (h : Nat) (ts : List Nat) (w : Nat) : Nat :=
  ∑ i ∈ Finset.range w, ts.getD i h * 3 ^ i

/-- Value of the first `w` trit positions of `n`, `∑_{i<w} trit_i·3^i`. -/
def trunc (n : Number) (w : Nat) : Nat :=
  truncS n.head n.tail w

/-- Numeric value of the finite tail (used for the Unicode-cache invariant;
meaningful when `head = 0`). -/
def numValue (n : Number) : Nat :=
  ∑ i ∈ Finset.range n.tail.length, n.tail.getD i 0 * 3 ^ i

/-- Base-3 digit list of `s / 3` built by the `while (symbol /= 3)` loop of
`to_number` / `repair_number_after_xlat2`.  The first argument is fuel
bounding the loop; `s` itself always suffices since `s / 3 < s` for `s > 0`,
so `toDigits` below instantiates the fuel accordingly. -/
def toDigitsAux : Nat → Nat → List Nat
  | _, 0 => []
  | 0, _ + 1 => []
  | fuel + 1, s + 1 => ((s + 1) % 3) :: toDigitsAux fuel ((s + 1) / 3)

/-- Base-3 digits of `s`, least significant first, width ≥ 1 (the source's
do-while digit loop: it always emits `s % 3` first). -/
def toDigits (s : Nat) : List Nat :=
  s % 3 :: toDigitsAux s (s / 3)

/-- `to_number`: build the `Number` of a non-negative integer, head 0,
Unicode cache set to the value when it is a codepoint (`< 0x110000`). -/
def to_number (symbol : Nat) : Number :=
  { head := 0
    tail := toDigits symbol
    memptr := none
    unicode := if symbol < 0x110000 then (symbol : Int) else -1 }

/-- The summation loop of `update_unicode`: accumulator `u`, positional
`factor` (clamped once it reaches `0x110000`, exactly as in the source),
early exit with `-1` as soon as the running sum reaches `0x110000`. -/
def uuAux : List Nat → Int → Int → Int
  | [], u, _ => u
  | t :: ts, u, factor =>
    let u' := u + factor * t
    let factor' := if factor < 0x110000 then factor * 3 else factor
    if 0x110000 ≤ u' then -1 else uuAux ts u' factor'

/-- `update_unicode`: recompute the Unicode cache when it is `-2`. -/
def update_unicode (n : Number) : Number :=
  if n.unicode ≠ -2 then n
  else if n.head ≠ 0 then { n with unicode := -1 }
  else { n with unicode := uuAux n.tail 0 1 }

/-- The flat `OPR[]` table of `opr`, row-major exactly as in the source. -/
def OPR : List Nat := [1, 0, 0, 1, 0, 2, 2, 2, 1]

/-- One trit of the crazy op: the source indexes `OPR[(a%3) + 3*(d%3)]`. -/
def oprTrit (a d : Nat) : Nat :=
  OPR.getD (a % 3 + 3 * (d % 3)) 0

/-- The trit table as the CLAIM words it: rows indexed by the `a`-trit with
row `a=0` being `(1,0,0)`, row `a=1` being `(1,0,2)`, row `a=2` being
`(2,2,1)`, columns indexed by the `d`-trit.  Kept only to compare against
the source's `oprTrit`. -/
def oprSpecTrit (a d : Nat) : Nat :=
  [[1, 0, 0], [1, 0, 2], [2, 2, 1]].getD (a % 3) [] |>.getD (d % 3) 0

/-- The combining loop of `opr`: walks both tails from position 0; when one
operand runs out of explicit trits, the source inserts its head trit before
combining, so the exhausted side continues with its (original) head. -/
def oprLoop (ah dh : Nat) : List Nat → List Nat → List Nat
  | [], ds => ds.map (fun d => oprTrit ah d)
  | a :: as, [] => oprTrit a dh :: oprLoop ah dh as []
  | a :: as, d :: ds => oprTrit a d :: oprLoop ah dh as ds

/-- `opr`: crazy op on `(a, d)`.  The source writes every combined trit into
both operands simultaneously and finally combines the heads into both heads,
invalidating both caches, so both operands leave as the same number. -/
def opr (a d : Number) : Number × Number :=
  let t := oprLoop a.head d.head a.tail d.tail
  let r : Number :=
    { head := oprTrit a.head d.head, tail := t, memptr := none, unicode := -2 }
  (r, r)

/-- `rotate_r`: the while loop pads the most-significant end with head trits
until `width ≥ rotwidth`; then `n->tail = n->tail->left` moves the entry
point of the cyclic list one position up with `width` unchanged, which reads
back as the one-step cyclic right rotation of the padded tail. -/
def rotate_r (n : Number) (rotwidth : Nat) : Number :=
  let t := n.tail ++ List.replicate (rotwidth - n.tail.length) n.head
  match t with
  | [] => { head := n.head, tail := [], memptr := none, unicode := -2 }
  | x :: xs => { head := n.head, tail := xs ++ [x], memptr := none, unicode := -2 }

/-- Rotate-right as the CLAIM words it: pad with head trits to the target
width, then remove the least-significant trit without reinserting it at the
most-significant end.  Kept only to compare against the source's
`rotate_r`. -/
def rotSpecClaim (n : Number) (rotwidth : Nat) : Number :=
  { head := n.head
    tail := (n.tail ++ List.replicate (rotwidth - n.tail.length) n.head).drop 1
    memptr := none
    unicode := -2 }

/-- The summation loop of `mod`: the accumulator starts at
`(29524 % m) * head` and each iteration adds `position * (trit + (m − head))`
reduced modulo `m`, with `position` tracking `3^i mod m`. -/
def modAux (m h : Nat) : List Nat → Nat → Nat → Nat
  | [], r, _ => r
  | t :: ts, r, p => modAux m h ts ((r + p * (t + (m - h))) % m) (p * 3 % m)

/-- `mod`: remainder of the number modulo `m` (the source documents it as
correct only for `2 ≤ m ≤ 29524`; `29524 = (3^10 − 1)/2` is the fixed
additive head contribution). -/
def mod (n : Number) (m : Nat) : Nat :=
  modAux m n.head n.tail ((29524 % m) * n.head) 1

/-- The carry loop of `increment`: each trit becomes `(t+1) mod 3`, the loop
stops at the first trit that did not wrap to 0; the boolean reports whether
the carry ran past the most-significant explicit trit. -/
def incTrits : List Nat → List Nat × Bool
  | [] => ([], true)
  | t :: ts =>
    if (t + 1) % 3 = 0 then
      let r := incTrits ts
      (0 :: r.1, r.2)
    else (((t + 1) % 3) :: ts, false)

/-- `increment`: add one.  The Unicode cache advances when it was a
codepoint that stays in range, else becomes "to be computed"; the memptr
cache follows the forward link `next` of its cell (the C `memptr->next`,
supplied here as a map from cell ids).  If the carry passes the
most-significant tail trit, one trit equal to `head+1` is appended — except
when `head = 2`, where the head wraps to 0 without appending. -/
def increment (next : Nat → Option Nat) (n : Number) : Number :=
  let u : Int :=
    if 0 ≤ n.unicode ∧ n.unicode < 0x110000 - 1 then n.unicode + 1 else -2
  let mp : Option Nat :=
    match n.memptr with
    | some c => next c
    | none => none
  let r := incTrits n.tail
  if r.2 = false then { head := n.head, tail := r.1, memptr := mp, unicode := u }
  else if n.head = 2 then { head := 0, tail := r.1, memptr := mp, unicode := u }
  else { head := n.head, tail := r.1 ++ [n.head + 1], memptr := mp, unicode := u }

/-- Outcome of the per-step decode in the main loop: the source first checks
that the Unicode value of the cell at `C` lies in `[33,126]` (anything else
is a fatal "invalid instruction" diagnostic, exit 1) and only then switches
on `(unicode + pos) % 94`. -/
inductive StepClass where
  | fatal
  | insn (i : Nat)
  deriving DecidableEq, Repr

/-- The pre-switch validity check and decode of the execution loop. -/
def classify (u : Int) (pos : Nat) : StepClass :=
  if u < 33 ∨ 126 < u then StepClass.fatal
  else StepClass.insn ((u.toNat + pos) % 94)

/-- The eight instruction kinds plus no-op, mirroring the `switch` cases. -/
inductive Action where
  | jmp | out | inp | rot | movd | opr | nop | hlt
  deriving DecidableEq, Repr

/-- The eight valid instruction codes. -/
def instructionSet : List Nat := [4, 5, 23, 39, 40, 62, 68, 81]

/-- The `switch ((unicode+pos)%94)` dispatch: case 68 and `default` share the
no-op branch, so every decoded value outside the eight codes is a no-op. -/
def dispatch (i : Nat) : Action :=
  if i = 4 then Action.jmp
  else if i = 5 then Action.out
  else if i = 23 then Action.inp
  else if i = 39 then Action.rot
  else if i = 40 then Action.movd
  else if i = 62 then Action.opr
  else if i = 81 then Action.hlt
  else Action.nop

/-- The loader's byte loop: whitespace is skipped without advancing `pos`; a
printable byte `v ∈ [33,127)` with `(v + pos) % 94` among the eight codes is
stored as `to_number v` at the next address and advances `pos` mod 564; any
other byte is fatal (`none`).  Returns the final `pos` and the stored cells
in address order. -/
def loadLoop : List Nat → Nat → List Number → Option (Nat × List Number)
  | [], pos, cells => some (pos, cells)
  | v :: rest, pos, cells =>
    if v = 32 ∨ v = 9 ∨ v = 13 ∨ v = 10 then loadLoop rest pos cells
    else if 33 ≤ v ∧ v < 127 ∧ (v + pos) % 94 ∈ instructionSet then
      loadLoop rest ((pos + 1) % 564) (cells ++ [to_number v])
    else none

/-- The loader's seeding loop `for (; pos < 18; pos++)` after end of file.
Each iteration clones the last two stored values, combines them with `opr`
(`m1` receives the first component, `m2` the second), refreshes `m1`'s
Unicode cache and stores `m1` at the next address; for counters 12..17 it
also refreshes and retains `m2` as the next initial value (the source
additionally memoizes `m2`'s memory cell, a cache no claim reads, so the
walk of the global tree is not threaded here).  The first argument is fuel;
the loop runs at most 18 iterations, so fuel 18 is always enough. -/
def seedLoopAux : Nat → Nat → Number → Number → List Number × List Number
  | 0, _, _, _ => ([], [])
  | fuel + 1, p, prev, prevprev =>
    if p < 18 then
      let r := opr prev prevprev
      let m1 := update_unicode r.1
      let rest := seedLoopAux fuel (p + 1) m1 prev
      if p < 12 then (m1 :: rest.1, rest.2)
      else (m1 :: rest.1, update_unicode r.2 :: rest.2)
    else ([], [])

/-- The whole seeding phase: the source reduces `pos` modulo 6 and then runs
the loop up to counter 18, storing each `m1` and retaining the `m2` of
counters 12..17 as the six initial values. -/
def seedPhase (pos : Nat) (prev prevprev : Number) : List Number × List Number :=
  seedLoopAux 18 (pos % 6) prev prevprev

/-- The `in` instruction (case 23): `-1` (EOF) yields `to_number 2` with head
forced to `T2` and the Unicode cache explicitly corrected to `-1`; a newline
yields `to_number 1` with head forced to `T2` but WITHOUT touching the
Unicode cache (which `to_number` left at `1`); anything else becomes the
codepoint's number. -/
def instr_in (c : Int) : Number :=
  if c = -1 then
    let a := to_number 2
    { a with head := 2, unicode := -1 }
  else if c = 10 then
    let a := to_number 1
    { a with head := 2 }
  else to_number c.toNat

/-- The Unicode-cache invariant claimed by the spec: whenever the cache is
not "to be computed" (`-2`), it equals `-1` exactly when the head trit is
nonzero or the numeric value is at least `0x110000`, and otherwise it equals
the exact value of the number. -/
def unicodeCacheOK (n : Number) : Prop :=
  n.unicode ≠ -2 →
    ((n.unicode = -1 ↔ (n.head ≠ 0 ∨ 0x110000 ≤ numValue n))
      ∧ (n.unicode ≠ -1 → n.unicode = numValue n))

instance (n : Number) : Decidable (unicodeCacheOK n) := by
  unfold unicodeCacheOK; infer_instance

/-- The 94-entry xlat2 substitution table: the ASCII codes of the source's
string literal, in order, written in hexadecimal. -/
def xlat2Table : List Nat :=
  [0x35, 0x7a, 0x5d, 0x26, 0x67, 0x71, 0x74, 0x79, 0x66, 0x72,
   0x24, 0x28, 0x77, 0x65, 0x34, 0x7b, 0x57, 0x50, 0x29, 0x48,
   0x2d, 0x5a, 0x6e, 0x2c, 0x5b, 0x25, 0x5c, 0x33, 0x64, 0x4c,
   0x2b, 0x51, 0x3b, 0x3e, 0x55, 0x21, 0x70, 0x4a, 0x53, 0x37,
   0x32, 0x46, 0x68, 0x4f, 0x41, 0x31, 0x43, 0x42, 0x36, 0x76,
   0x5e, 0x3d, 0x49, 0x5f, 0x30, 0x2f, 0x38, 0x7c, 0x6a, 0x73,
   0x62, 0x39, 0x6d, 0x3c, 0x2e, 0x54, 0x56, 0x61, 0x63, 0x60,
   0x75, 0x59, 0x2a, 0x4d, 0x4b, 0x27, 0x58, 0x7e, 0x78, 0x44,
   0x6c, 0x7d, 0x52, 0x45, 0x6f, 0x6b, 0x4e, 0x3a, 0x23, 0x3f,
   0x47, 0x22, 0x69, 0x40]

/-- One table substitution on a Unicode value: `xlat2[(u − 33) % 94]`. -/
def xlat2Map (u : Nat) : Nat :=
  xlat2Table.getD ((u - 33) % 94) 0

/-- `xlat2` on a number: refresh the Unicode cache, fail (exit 1) unless it
lies in `[33,126]`, substitute through the table and discard the trit tail
(width 0); the head and the memptr cache are left untouched. -/
def xlat2 (n : Number) : Except Unit Number :=
  let n := update_unicode n
  if n.unicode < 33 ∨ 126 < n.unicode then Except.error ()
  else Except.ok
    { head := n.head, tail := [], memptr := n.memptr
      unicode := (xlat2Map n.unicode.toNat : Int) }

/-- `repair_number_after_xlat2`: when the tail was discarded by `xlat2` and
the Unicode cache is non-negative, rebuild the base-3 digits of the cache as
the new tail and invalidate the memptr cache; the head is untouched. -/
def repair_number_after_xlat2 (n : Number) : Number :=
  if n.tail ≠ [] ∧ n.tail.length ≠ 0 then n
  else if n.unicode < 0 then n
  else
    { head := n.head, tail := toDigits n.unicode.toNat, memptr := none
      unicode := n.unicode }

/-- One self-encryption step as the execution loop performs it: `xlat2`
followed by the repair that runs before the number is next used. -/
def xlatStep (n : Number) : Option Number :=
  match xlat2 n with
  | Except.ok m => some (repair_number_after_xlat2 m)
  | Except.error _ => none

/-- Iterated `xlat2`-plus-repair. -/
def xlatIter : Nat → Number → Option Number
  | 0, n => some n
  | k + 1, n =>
    match xlatStep n with
    | some m => xlatIter k m
    | none => none

/-- The images of the 94 printable positions under one `xlat2Map` step. -/
def xlat2Images : List Nat :=
  (List.range 94).map (fun k => xlat2Map (k + 33))

/-- A node of the memory tree: the cell (by id) for the prefix walked so
far, and up to three children keyed by trit (the `child[3]` array of the
source, here a map from the trit). -/
inductive MTree where
  | node (cell : Nat) (child : Nat → Option MTree)

/-- The cell id stored at a node. -/
def MTree.cellId : MTree → Nat
  | MTree.node c _ => c

/-- Child lookup, `cur_node->child[t]`. -/
def MTree.getChild : MTree → Nat → Option MTree
  | MTree.node _ ch, t => ch t

/-- Child update. -/
def MTree.setChild : MTree → Nat → MTree → MTree
  | MTree.node c ch, t, u =>
    MTree.node c (fun y => if y = t then some u else ch y)

/-- The walk of `update_memptr`: follow the trits from least significant,
descending into existing children and allocating missing ones.  A freshly
allocated child reached by a trit equal to the head shares the tracked cell
`last_match` (which always equals the current node's cell), otherwise it
receives a fresh empty cell whose id is drawn from the counter.  Returns the
final tracked cell, the updated tree and the new counter. -/
def walkAux (h : Nat) : List Nat → MTree → Nat → Nat × MTree × Nat
  | [], tr, ctr => (tr.cellId, tr, ctr)
  | x :: xs, tr, ctr =>
    match tr.getChild x with
    | some ch =>
      let r := walkAux h xs ch ctr
      (r.1, tr.setChild x r.2.1, r.2.2)
    | none =>
      let c := if x = h then tr.cellId else ctr
      let ctr2 := if x = h then ctr else ctr + 1
      let r := walkAux h xs (MTree.node c (fun _ => none)) ctr2
      (r.1, tr.setChild x r.2.1, r.2.2)

/-- The memory: three roots (`MemoryTree memory[3]`, indexed by the head
trit) plus the allocation counter supplying fresh cell ids. -/
structure Memory where
  root : Nat → MTree
  ctr : Nat

/-- Initial memory: three root nodes with fresh empty cells, no children. -/
def initMemory : Memory :=
  { root := fun h => MTree.node h (fun _ => none), ctr := 3 }

/-- `update_memptr`: memoized cell lookup for `n`.  When the cache is unset,
walk the tree rooted at the head trit and record the updated root and
counter. -/
def update_memptr (n : Number) (S : Memory) : Nat × Memory :=
  match n.memptr with
  | some c => (c, S)
  | none =>
    let r := walkAux n.head n.tail (S.root n.head) S.ctr
    (r.1,
      { root := fun y => if y = n.head then r.2.1 else S.root y
        ctr := r.2.2 })

/-- Canonical tail: the most-significant trits equal to the head are
stripped (appending head trits does not change the value). -/
def canonTail (h : Nat) : List Nat → List Nat
  | [] => []
  | x :: xs =>
    match canonTail h xs with
    | [] => if x = h then [] else [x]
    | ys => x :: ys

/-- Subtree of the memory tree at a trit path. -/
def subAt : MTree → List Nat → Option MTree
  | tr, [] => some tr
  | tr, x :: xs =>
    match tr.getChild x with
    | some ch => subAt ch xs
    | none => none

/-- The prefix-sharing invariant of the memory tree: every child reached by
the head trit shares its parent's cell, recursively. -/
inductive ShareInv (h : Nat) : MTree → Prop where
  | mk (c : Nat) (ch : Nat → Option MTree)
      (hrec : ∀ y u, ch y = some u → ShareInv h u)
      (hshare : ∀ u, ch h = some u → u.cellId = c) :
      ShareInv h (MTree.node c ch)

/-- The sharing invariant for all three roots of the memory. -/
def MemInv (S : Memory) : Prop :=
  ∀ h, ShareInv h (S.root h)

/-- Result of reading one UTF-8 codepoint from the input byte stream. -/
inductive ReadResult where
  | eof
  | chr (c : Nat)
  | invalid
  deriving DecidableEq, Repr

/-- `read_utf8_character` over a byte stream (`[]` is end of file; a missing
continuation byte corresponds to the source's `EOF` checks). -/
def read_utf8_character : List Nat → ReadResult
  | [] => ReadResult.eof
  | b :: rest =>
    if b &&& 0x80 = 0 then ReadResult.chr b
    else if b &&& 0xE0 = 0xC0 then
      match rest with
      | [] => ReadResult.invalid
      | b2 :: _ =>
        if b2 &&& 0xC0 ≠ 0x80 then ReadResult.invalid
        else ReadResult.chr (((b &&& 0x1F) <<< 6) ||| (b2 &&& 0x3F))
    else if b &&& 0xF0 = 0xE0 then
      match rest with
      | [] => ReadResult.invalid
      | b2 :: rest2 =>
        if b2 &&& 0xC0 ≠ 0x80 then ReadResult.invalid
        else
          match rest2 with
          | [] => ReadResult.invalid
          | b3 :: _ =>
            if b3 &&& 0xC0 ≠ 0x80 then ReadResult.invalid
            else ReadResult.chr
              (((b &&& 0x0F) <<< 12) ||| ((b2 &&& 0x3F) <<< 6) ||| (b3 &&& 0x3F))
    else if b &&& 0xF8 = 0xF0 then
      match rest with
      | [] => ReadResult.invalid
      | b2 :: rest2 =>
        if b2 &&& 0xC0 ≠ 0x80 then ReadResult.invalid
        else
          match rest2 with
          | [] => ReadResult.invalid
          | b3 :: rest3 =>
            if b3 &&& 0xC0 ≠ 0x80 then ReadResult.invalid
            else
              match rest3 with
              | [] => ReadResult.invalid
              | b4 :: _ =>
                if b4 &&& 0xC0 ≠ 0x80 then ReadResult.invalid
                else ReadResult.chr
                  (((b &&& 0x07) <<< 18) ||| ((b2 &&& 0x3F) <<< 12)
                    ||| ((b3 &&& 0x3F) <<< 6) ||| (b4 &&& 0x3F))
    else ReadResult.invalid

/-- A well-formed continuation byte, `10xxxxxx`. -/
def contOK (b : Nat) : Prop := 0x80 ≤ b ∧ b ≤ 0xBF

instance : DecidablePred contOK := fun b => by
  unfold contOK; infer_instance

/-- Structural invalidity of an input prefix as the CLAIM words it: a lead
byte outside the four bit patterns `0xxxxxxx`, `110xxxxx`, `1110xxxx`,
`11110xxx`, or a missing or malformed continuation byte for the lead's
length.  Kept only to compare against the source's decoder. -/
def structInvalid : List Nat → Prop
  | [] => False
  | b :: rest =>
    if b ≤ 0x7F then False
    else if 0xC0 ≤ b ∧ b ≤ 0xDF then
      match rest with
      | [] => True
      | b2 :: _ => ¬ contOK b2
    else if 0xE0 ≤ b ∧ b ≤ 0xEF then
      match rest with
      | [] => True
      | b2 :: rest2 =>
        ¬ contOK b2 ∨
          match rest2 with
          | [] => True
          | b3 :: _ => ¬ contOK b3
    else if 0xF0 ≤ b ∧ b ≤ 0xF7 then
      match rest with
      | [] => True
      | b2 :: rest2 =>
        ¬ contOK b2 ∨
          match rest2 with
          | [] => True
          | b3 :: rest3 =>
            ¬ contOK b3 ∨
              match rest3 with
              | [] => True
              | b4 :: _ => ¬ contOK b4
    else True

/-- Decoded values never exceed `0x1FFFFF` (the 4-byte pattern ceiling);
the decoder enforces no tighter Unicode bound. -/
def readBound : ReadResult → Prop
  | ReadResult.chr c => c ≤ 0x1FFFFF
  | _ => True

/-- `print_utf8`: encode a codepoint as UTF-8 bytes; values outside
`[0, 0x110000)` are fatal.  The duplicated `< 0x800` branch mirrors the
source's (dead) duplicated two-byte case. -/
def print_utf8 (symbol : Int) : Except Unit (List Nat) :=
  if symbol < 0 ∨ 0x110000 ≤ symbol then Except.error ()
  else
    let s := symbol.toNat
    if s < 0x80 then Except.ok [s]
    else if s < 0x800 then
      Except.ok [0xC0 ||| (s >>> 6), 0x80 ||| (s &&& 0x3F)]
    else if s < 0x800 then
      Except.ok [0xC0 ||| (s >>> 6), 0x80 ||| (s &&& 0x3F)]
    else if s < 0x10000 then
      Except.ok [0xE0 ||| (s >>> 12), 0x80 ||| ((s >>> 6) &&& 0x3F),
                 0x80 ||| (s &&& 0x3F)]
    else
      Except.ok [0xF0 ||| (s >>> 18), 0x80 ||| ((s >>> 12) &&& 0x3F),
                 0x80 ||| ((s >>> 6) &&& 0x3F), 0x80 ||| (s &&& 0x3F)]

end Unshackled

namespace Unshackled

/-! ### Helper lemmas -/

theorem modAux_lt (m h : Nat) (hm : 0 < m) :
    ∀ (ts : List Nat) (r p : Nat), ts ≠ [] → modAux m h ts r p < m := by
  intro ts
  induction ts with
  | nil => intro r p hne; exact absurd rfl hne
  | cons t ts ih =>
    intro r p _
    cases ts with
    | nil => simpa [modAux] using Nat.mod_lt _ hm
    | cons t2 ts2 => exact ih _ _ (by simp)

theorem modAux_cast (m h : Nat) :
    ∀ (ts : List Nat) (r p : Nat),
      ((modAux m h ts r p : Nat) : ZMod m)
        = (r : ZMod m) + (p : ZMod m)
            * ∑ i ∈ Finset.range ts.length,
                ((ts.getD i 0 : ZMod m) + ((m - h : Nat) : ZMod m))
                  * (3 : ZMod m) ^ i := by
  intro ts
  induction ts with
  | nil => intro r p; simp [modAux]
  | cons t ts ih =>
    intro r p
    have hstep : modAux m h (t :: ts) r p
        = modAux m h ts ((r + p * (t + (m - h))) % m) (p * 3 % m) := rfl
    rw [hstep, ih]
    have hsum : ∑ i ∈ Finset.range (t :: ts).length,
        (((t :: ts).getD i 0 : ZMod m) + ((m - h : Nat) : ZMod m))
          * (3 : ZMod m) ^ i
        = ((t : ZMod m) + ((m - h : Nat) : ZMod m))
          + 3 * ∑ i ∈ Finset.range ts.length,
              ((ts.getD i 0 : ZMod m) + ((m - h : Nat) : ZMod m))
                * (3 : ZMod m) ^ i := by
      rw [List.length_cons, Finset.sum_range_succ']
      simp only [List.getD_cons_succ, List.getD_cons_zero, pow_zero, mul_one]
      rw [Finset.mul_sum, add_comm]
      congr 1
      refine Finset.sum_congr rfl fun i _ => ?_
      rw [pow_succ]
      ring
    rw [hsum]
    push_cast [ZMod.natCast_mod]
    ring

theorem mod_congr (n : Number) (m : Nat) (hh : n.head ≤ m) :
    ((mod n m : Nat) : ZMod m)
      = ∑ i ∈ Finset.range n.tail.length,
          ((n.tail.getD i 0 : ZMod m) - (n.head : ZMod m)) * (3 : ZMod m) ^ i
        + 29524 * (n.head : ZMod m) := by
  unfold mod
  rw [modAux_cast, Nat.cast_mul, ZMod.natCast_mod, Nat.cast_sub hh,
    ZMod.natCast_self]
  have hs : ∑ i ∈ Finset.range n.tail.length,
      ((n.tail.getD i 0 : ZMod m) + ((0 : ZMod m) - (n.head : ZMod m)))
        * (3 : ZMod m) ^ i
      = ∑ i ∈ Finset.range n.tail.length,
          ((n.tail.getD i 0 : ZMod m) - (n.head : ZMod m)) * (3 : ZMod m) ^ i :=
    Finset.sum_congr rfl fun i _ => by ring
  rw [hs]
  push_cast
  ring

theorem specSumZ_ext (h : Nat) (ts : List Nat) (L : Nat) (hL : ts.length ≤ L) :
    ∑ i ∈ Finset.range ts.length, ((ts.getD i 0 : ℤ) - h) * 3 ^ i
      = ∑ i ∈ Finset.range L, ((ts.getD i h : ℤ) - h) * 3 ^ i := by
  have h1 : ∑ i ∈ Finset.range ts.length, ((ts.getD i 0 : ℤ) - h) * 3 ^ i
      = ∑ i ∈ Finset.range ts.length, ((ts.getD i h : ℤ) - h) * 3 ^ i :=
    Finset.sum_congr rfl fun i hi => by
      rw [Finset.mem_range] at hi
      rw [List.getD_eq_getElem ts 0 hi, List.getD_eq_getElem ts h hi]
  rw [h1]
  refine Finset.sum_subset (Finset.range_subset.2 hL) fun i _ hni => ?_
  rw [Finset.mem_range, not_lt] at hni
  rw [List.getD_eq_default ts h hni]
  simp

theorem mod_eq_spec (n : Number) (m : Nat) (h2 : 2 ≤ m) (hh : n.head ≤ 2)
    (hw : 1 ≤ n.tail.length) :
    ((mod n m : Nat) : ℤ)
      = ((∑ i ∈ Finset.range n.tail.length,
            ((n.tail.getD i 0 : ℤ) - n.head) * 3 ^ i) + 29524 * n.head) % m := by
  have hm : 0 < m := by omega
  have hlt : mod n m < m := by
    have := modAux_lt m n.head hm n.tail ((29524 % m) * n.head) 1
      (by intro h0; rw [h0] at hw; simp at hw)
    exact this
  have hcast : ((mod n m : ℤ) : ZMod m)
      = ((((∑ i ∈ Finset.range n.tail.length,
            ((n.tail.getD i 0 : ℤ) - n.head) * 3 ^ i) + 29524 * n.head : ℤ)) : ZMod m) := by
    rw [Int.cast_natCast, mod_congr n m (by omega)]
    push_cast
    ring
  have hmodeq : (mod n m : ℤ) % m
      = ((∑ i ∈ Finset.range n.tail.length,
            ((n.tail.getD i 0 : ℤ) - n.head) * 3 ^ i) + 29524 * n.head) % m :=
    (ZMod.intCast_eq_intCast_iff _ _ _).1 hcast
  calc ((mod n m : Nat) : ℤ)
      = ((mod n m : Nat) : ℤ) % m := by
        rw [Int.emod_eq_of_lt (Int.natCast_nonneg _) (by exact_mod_cast hlt)]
    _ = _ := hmodeq

theorem two_mul_geom_add_one (w : Nat) :
    2 * (∑ i ∈ Finset.range w, 3 ^ i) + 1 = 3 ^ w := by
  induction w with
  | zero => simp
  | succ w ih =>
    rw [Finset.sum_range_succ, pow_succ]
    omega

theorem geom_succ (w : Nat) :
    ∑ i ∈ Finset.range (w + 1), 3 ^ i
      = 3 * (∑ i ∈ Finset.range w, 3 ^ i) + 1 := by
  rw [Finset.sum_range_succ']
  simp only [pow_zero]
  congr 1
  rw [Finset.mul_sum]
  exact Finset.sum_congr rfl fun i _ => by rw [pow_succ]; ring

theorem truncS_cons (h t : Nat) (ts : List Nat) (w : Nat) :
    truncS h (t :: ts) (w + 1) = t + 3 * truncS h ts w := by
  unfold truncS
  rw [Finset.sum_range_succ']
  simp only [List.getD_cons_succ, List.getD_cons_zero, pow_zero, mul_one]
  rw [Finset.mul_sum, add_comm]
  congr 1
  refine Finset.sum_congr rfl fun i _ => ?_
  rw [pow_succ]
  ring

theorem truncS_nil (h w : Nat) :
    truncS h [] w = h * ∑ i ∈ Finset.range w, 3 ^ i := by
  unfold truncS
  rw [Finset.mul_sum]
  exact Finset.sum_congr rfl fun i _ => by rw [List.getD_nil]

theorem truncS_lt (h : Nat) (ts : List Nat) (w : Nat) (hh : h < 3)
    (hts : ∀ t ∈ ts, t < 3) : truncS h ts w < 3 ^ w := by
  have hb : ∀ i, ts.getD i h ≤ 2 := by
    intro i
    by_cases hi : i < ts.length
    · rw [List.getD_eq_getElem ts h hi]
      have := hts ts[i] (List.getElem_mem hi)
      omega
    · rw [List.getD_eq_default ts h (by omega)]
      omega
  have h1 : truncS h ts w ≤ ∑ i ∈ Finset.range w, 2 * 3 ^ i := by
    unfold truncS
    exact Finset.sum_le_sum fun i _ => Nat.mul_le_mul_right _ (hb i)
  have h2 := two_mul_geom_add_one w
  rw [Finset.mul_sum] at h2
  omega

theorem incTrits_length : ∀ ts : List Nat, (incTrits ts).1.length = ts.length := by
  intro ts
  induction ts with
  | nil => rfl
  | cons t ts ih =>
    simp only [incTrits]
    split_ifs with h
    · simpa using ih
    · simp

theorem incTrits_carry : ∀ ts : List Nat, (∀ t ∈ ts, t < 3) →
    ((incTrits ts).2 = true ↔ ∀ t ∈ ts, t = 2) := by
  intro ts
  induction ts with
  | nil => intro _; simp [incTrits]
  | cons t ts ih =>
    intro hv
    have ht : t < 3 := hv t (by simp)
    have hrest := ih fun x hx => hv x (by simp [hx])
    simp only [incTrits]
    split_ifs with h
    · have ht2 : t = 2 := by omega
      simp [ht2, hrest]
    · have ht2 : t ≠ 2 := by intro h2; rw [h2] at h; simp at h
      simp [ht2]

theorem incTrits_valid : ∀ ts : List Nat, (∀ t ∈ ts, t < 3) →
    ∀ t ∈ (incTrits ts).1, t < 3 := by
  intro ts
  induction ts with
  | nil => intro _ t ht; simp [incTrits] at ht
  | cons t ts ih =>
    intro hv x hx
    simp only [incTrits] at hx
    split_ifs at hx with h
    · simp at hx
      rcases hx with hx | hx
      · omega
      · exact ih (fun y hy => hv y (by simp [hy])) x hx
    · simp at hx
      rcases hx with hx | hx
      · omega
      · exact hv x (by simp [hx])

theorem increment_cons_two (next : Nat → Option Nat) (h : Nat) (ts : List Nat)
    (mp mp' : Option Nat) (u u' : Int) :
    (increment next ⟨h, 2 :: ts, mp, u⟩).head
        = (increment next ⟨h, ts, mp', u'⟩).head
    ∧ (increment next ⟨h, 2 :: ts, mp, u⟩).tail
        = 0 :: (increment next ⟨h, ts, mp', u'⟩).tail := by
  have hstep : incTrits (2 :: ts) = (0 :: (incTrits ts).1, (incTrits ts).2) := by
    simp [incTrits]
  cases hc : (incTrits ts).2 with
  | false => simp [increment, hstep, hc]
  | true =>
    by_cases hh : h = 2
    · simp [increment, hstep, hc, hh]
    · simp [increment, hstep, hc, hh]

theorem increment_cons_lt (next : Nat → Option Nat) (h t : Nat) (ts : List Nat)
    (mp : Option Nat) (u : Int) (ht : (t + 1) % 3 ≠ 0) :
    (increment next ⟨h, t :: ts, mp, u⟩).head = h
    ∧ (increment next ⟨h, t :: ts, mp, u⟩).tail = ((t + 1) % 3) :: ts := by
  have hstep : incTrits (t :: ts) = (((t + 1) % 3) :: ts, false) := by
    simp [incTrits, ht]
  simp [increment, hstep]

theorem increment_nil (next : Nat → Option Nat) (h : Nat) (mp : Option Nat)
    (u : Int) :
    (increment next ⟨h, [], mp, u⟩).head = (if h = 2 then 0 else h)
    ∧ (increment next ⟨h, [], mp, u⟩).tail
        = (if h = 2 then [] else [h + 1]) := by
  have hstep : incTrits ([] : List Nat) = ([], true) := rfl
  by_cases hh : h = 2 <;> simp [increment, hstep, hh]

theorem trunc_increment (next : Nat → Option Nat) :
    ∀ (ts : List Nat) (h : Nat) (mp : Option Nat) (u : Int),
      h < 3 → (∀ t ∈ ts, t < 3) → ∀ w,
      trunc (increment next ⟨h, ts, mp, u⟩) w
        = (trunc ⟨h, ts, mp, u⟩ w + 1) % 3 ^ w := by
  intro ts
  induction ts with
  | nil =>
    intro h mp u hh _ w
    obtain ⟨hhd, htl⟩ := increment_nil next h mp u
    rw [show trunc (increment next ⟨h, [], mp, u⟩) w
        = truncS (increment next ⟨h, [], mp, u⟩).head
            (increment next ⟨h, [], mp, u⟩).tail w from rfl]
    rw [hhd, htl]
    rw [show trunc ⟨h, [], mp, u⟩ w = truncS h [] w from rfl]
    by_cases h2 : h = 2
    · rw [if_pos h2, if_pos h2]
      rw [truncS_nil, truncS_nil]
      rw [h2]
      rw [show (2 : Nat) * ∑ i ∈ Finset.range w, 3 ^ i + 1 = 3 ^ w from
        two_mul_geom_add_one w]
      simp
    · simp only [if_neg h2]
      cases w with
      | zero => simp [truncS]
      | succ w =>
        rw [truncS_cons, truncS_nil, truncS_nil, geom_succ]
        have hG := two_mul_geom_add_one w
        have h1 : h ≤ 1 := by omega
        have hb : h * (3 * (∑ i ∈ Finset.range w, 3 ^ i) + 1) + 1 < 3 ^ (w + 1) := by
          have hm := Nat.mul_le_mul_right
            (3 * (∑ i ∈ Finset.range w, 3 ^ i) + 1) h1
          rw [one_mul] at hm
          rw [pow_succ]
          omega
        rw [Nat.mod_eq_of_lt hb]
        ring
  | cons t ts ih =>
    intro h mp u hh hts w
    have ht : t < 3 := hts t (by simp)
    have hts' : ∀ x ∈ ts, x < 3 := fun x hx => hts x (by simp [hx])
    by_cases ht2 : (t + 1) % 3 = 0
    · have ht2' : t = 2 := by omega
      subst ht2'
      obtain ⟨hhd, htl⟩ := increment_cons_two next h ts mp mp u u
      cases w with
      | zero => simp [trunc, truncS]
      | succ w =>
        rw [show trunc (increment next ⟨h, 2 :: ts, mp, u⟩) (w + 1)
            = truncS (increment next ⟨h, 2 :: ts, mp, u⟩).head
                (increment next ⟨h, 2 :: ts, mp, u⟩).tail (w + 1) from rfl]
        rw [hhd, htl, truncS_cons]
        rw [show truncS (increment next ⟨h, ts, mp, u⟩).head
              (increment next ⟨h, ts, mp, u⟩).tail w
            = trunc (increment next ⟨h, ts, mp, u⟩) w from rfl]
        rw [ih h mp u hh hts' w]
        rw [show trunc ⟨h, 2 :: ts, mp, u⟩ (w + 1)
            = truncS h (2 :: ts) (w + 1) from rfl, truncS_cons]
        rw [show trunc ⟨h, ts, mp, u⟩ w = truncS h ts w from rfl]
        rw [pow_succ']
        rw [show 2 + 3 * truncS h ts w + 1 = 3 * (truncS h ts w + 1) from by ring]
        rw [Nat.mul_mod_mul_left]
        omega
    · obtain ⟨hhd, htl⟩ := increment_cons_lt next h t ts mp u ht2
      cases w with
      | zero => simp [trunc, truncS]
      | succ w =>
        rw [show trunc (increment next ⟨h, t :: ts, mp, u⟩) (w + 1)
            = truncS (increment next ⟨h, t :: ts, mp, u⟩).head
                (increment next ⟨h, t :: ts, mp, u⟩).tail (w + 1) from rfl]
        rw [hhd, htl]
        have ht1 : (t + 1) % 3 = t + 1 := Nat.mod_eq_of_lt (by omega)
        rw [ht1, truncS_cons]
        rw [show trunc ⟨h, t :: ts, mp, u⟩ (w + 1)
            = truncS h (t :: ts) (w + 1) from rfl, truncS_cons]
        have hT := truncS_lt h ts w hh hts'
        have htle : t ≤ 1 := by omega
        have hb : t + 3 * truncS h ts w + 1 < 3 ^ (w + 1) := by
          rw [pow_succ']
          omega
        rw [Nat.mod_eq_of_lt hb]
        omega

theorem increment_valid (next : Nat → Option Nat) (n : Number)
    (hv : ValidNumber n) : ValidNumber (increment next n) := by
  obtain ⟨hh, hts⟩ := hv
  have htv := incTrits_valid n.tail hts
  cases hb : (incTrits n.tail).2 with
  | false =>
    simp [ValidNumber, increment, hb]
    exact ⟨hh, fun t htm => htv t htm⟩
  | true =>
    by_cases h2 : n.head = 2
    · simp [ValidNumber, increment, hb, h2]
      exact fun t htm => htv t htm
    · simp only [ValidNumber, increment, hb, h2]
      simp only [Bool.true_eq_false, if_false, if_neg h2]
      refine ⟨hh, ?_⟩
      intro t htm
      rw [List.mem_append] at htm
      rcases htm with htm | htm
      · exact htv t htm
      · simp at htm
        omega

theorem increment_head (next : Nat → Option Nat) (n : Number)
    (hv : ValidNumber n) :
    (increment next n).head
      = (if n.head = 2 ∧ (∀ t ∈ n.tail, t = 2) then 0 else n.head) := by
  obtain ⟨hh, hts⟩ := hv
  have hc := incTrits_carry n.tail hts
  cases hb : (incTrits n.tail).2 with
  | false =>
    have hall : ¬ ∀ t ∈ n.tail, t = 2 := by
      intro hall
      rw [hc.2 hall] at hb
      exact Bool.noConfusion hb
    have he : (increment next n).head = n.head := by simp [increment, hb]
    rw [he, if_neg fun hcond => hall hcond.2]
  | true =>
    have hall : ∀ t ∈ n.tail, t = 2 := hc.1 hb
    by_cases h2 : n.head = 2
    · have he : (increment next n).head = 0 := by simp [increment, hb, h2]
      rw [he, if_pos ⟨h2, hall⟩]
    · have he : (increment next n).head = n.head := by simp [increment, hb, h2]
      rw [he, if_neg fun hcond => h2 hcond.1]

theorem increment_length (next : Nat → Option Nat) (n : Number)
    (hv : ValidNumber n) :
    (increment next n).tail.length
      = (if (∀ t ∈ n.tail, t = 2) ∧ n.head ≠ 2 then n.tail.length + 1
         else n.tail.length) := by
  obtain ⟨hh, hts⟩ := hv
  have hc := incTrits_carry n.tail hts
  have hlen := incTrits_length n.tail
  cases hb : (incTrits n.tail).2 with
  | false =>
    have hall : ¬ ∀ t ∈ n.tail, t = 2 := by
      intro hall
      rw [hc.2 hall] at hb
      exact Bool.noConfusion hb
    have he : (increment next n).tail = (incTrits n.tail).1 := by
      simp [increment, hb]
    rw [he, hlen, if_neg fun hcond => hall hcond.1]
  | true =>
    have hall : ∀ t ∈ n.tail, t = 2 := hc.1 hb
    by_cases h2 : n.head = 2
    · have he : (increment next n).tail = (incTrits n.tail).1 := by
        simp [increment, hb, h2]
      rw [he, hlen, if_neg fun hcond => hcond.2 h2]
    · have he : (increment next n).tail
          = (incTrits n.tail).1 ++ [n.head + 1] := by
        simp [increment, hb, h2]
      rw [he, if_pos ⟨hall, h2⟩]
      simp [hlen]

theorem cellId_setChild (tr : MTree) (x : Nat) (u : MTree) :
    (tr.setChild x u).cellId = tr.cellId := by
  cases tr
  rfl

theorem setChild_of_getChild (tr : MTree) (x : Nat) (ch : MTree)
    (h : tr.getChild x = some ch) : tr.setChild x ch = tr := by
  cases tr with
  | node c f =>
    simp only [MTree.getChild] at h
    simp only [MTree.setChild]
    congr 1
    funext y
    by_cases hy : y = x
    · subst hy
      simp [h]
    · simp [hy]

theorem ShareInv.child_inv {h : Nat} {tr : MTree} (hs : ShareInv h tr)
    (y : Nat) (u : MTree) (hu : tr.getChild y = some u) : ShareInv h u := by
  cases hs with
  | mk c ch hrec hshare =>
    simp only [MTree.getChild] at hu
    exact hrec y u hu

theorem ShareInv.share {h : Nat} {tr : MTree} (hs : ShareInv h tr)
    (u : MTree) (hu : tr.getChild h = some u) : u.cellId = tr.cellId := by
  cases hs with
  | mk c ch hrec hshare =>
    simp only [MTree.getChild] at hu
    exact hshare u hu

theorem shareInv_leaf (h c : Nat) :
    ShareInv h (MTree.node c (fun _ => none)) :=
  ShareInv.mk c _ (fun _ u hu => Option.noConfusion hu)
    (fun u hu => Option.noConfusion hu)

theorem walkAux_cellId (h : Nat) :
    ∀ (t : List Nat) (tr : MTree) (ctr : Nat),
      (walkAux h t tr ctr).2.1.cellId = tr.cellId := by
  intro t
  induction t with
  | nil => intro tr ctr; rfl
  | cons x xs ih =>
    intro tr ctr
    cases hg : tr.getChild x with
    | some ch =>
      simp only [walkAux, hg]
      exact cellId_setChild tr x _
    | none =>
      simp only [walkAux, hg]
      exact cellId_setChild tr x _

theorem walkAux_shareInv (h : Nat) :
    ∀ (t : List Nat) (tr : MTree) (ctr : Nat), ShareInv h tr →
      ShareInv h (walkAux h t tr ctr).2.1 := by
  intro t
  induction t with
  | nil => intro tr ctr hs; exact hs
  | cons x xs ih =>
    intro tr ctr hs
    cases hs with
    | mk c f hrec hshare =>
      cases hg : f x with
      | some ch =>
        have hch : ShareInv h ch := hrec x ch hg
        simp only [walkAux, MTree.getChild, hg, MTree.setChild]
        refine ShareInv.mk c _ ?_ ?_
        · intro y u hu
          by_cases hy : y = x
          · subst hy
            rw [if_pos rfl] at hu
            cases hu
            exact ih ch ctr hch
          · rw [if_neg hy] at hu
            exact hrec y u hu
        · intro u hu
          by_cases hy : h = x
          · rw [if_pos hy] at hu
            cases hu
            rw [walkAux_cellId]
            subst hy
            exact hshare ch hg
          · rw [if_neg hy] at hu
            exact hshare u hu
      | none =>
        simp only [walkAux, MTree.getChild, hg, MTree.setChild]
        refine ShareInv.mk c _ ?_ ?_
        · intro y u hu
          by_cases hy : y = x
          · subst hy
            rw [if_pos rfl] at hu
            cases hu
            exact ih _ _ (shareInv_leaf h _)
          · rw [if_neg hy] at hu
            exact hrec y u hu
        · intro u hu
          by_cases hy : h = x
          · rw [if_pos hy] at hu
            cases hu
            rw [walkAux_cellId]
            simp only [MTree.cellId]
            rw [if_pos hy.symm]
          · rw [if_neg hy] at hu
            exact hshare u hu

theorem walkAux_replicate (h : Nat) :
    ∀ (k : Nat) (tr : MTree) (ctr : Nat), ShareInv h tr →
      (walkAux h (List.replicate k h) tr ctr).1 = tr.cellId := by
  intro k
  induction k with
  | zero => intro tr ctr _; rfl
  | succ k ih =>
    intro tr ctr hs
    rw [List.replicate_succ]
    cases hs with
    | mk c f hrec hshare =>
      cases hg : f h with
      | some ch =>
        simp only [walkAux, MTree.getChild, hg]
        rw [ih ch ctr (hrec h ch hg)]
        exact hshare ch hg
      | none =>
        simp only [walkAux, MTree.getChild, hg, if_pos rfl]
        rw [ih _ _ (shareInv_leaf h _)]
        rfl

theorem walkAux_append_replicate (h : Nat) :
    ∀ (t : List Nat) (k : Nat) (tr : MTree) (ctr : Nat), ShareInv h tr →
      (walkAux h (t ++ List.replicate k h) tr ctr).1
        = (walkAux h t tr ctr).1 := by
  intro t
  induction t with
  | nil =>
    intro k tr ctr hs
    simp only [List.nil_append]
    rw [walkAux_replicate h k tr ctr hs]
    rfl
  | cons x xs ih =>
    intro k tr ctr hs
    cases hs with
    | mk c f hrec hshare =>
      simp only [List.cons_append]
      cases hg : f x with
      | some ch =>
        simp only [walkAux, MTree.getChild, hg]
        exact ih k ch ctr (hrec x ch hg)
      | none =>
        simp only [walkAux, MTree.getChild, hg]
        exact ih k _ _ (shareInv_leaf h _)

theorem walkAux_prefix (h : Nat) :
    ∀ (t p q : List Nat) (tr : MTree) (ctr : Nat), p ++ q = t →
      ∃ u, subAt (walkAux h t tr ctr).2.1 p = some u
        ∧ u.cellId = (walkAux h p tr ctr).1 := by
  intro t
  induction t with
  | nil =>
    intro p q tr ctr hpq
    have hp : p = [] := by
      cases p with
      | nil => rfl
      | cons a as => simp at hpq
    subst hp
    exact ⟨tr, rfl, rfl⟩
  | cons x xs ih =>
    intro p q tr ctr hpq
    cases p with
    | nil =>
      refine ⟨(walkAux h (x :: xs) tr ctr).2.1, rfl, ?_⟩
      rw [walkAux_cellId]
      rfl
    | cons y ps =>
      have hy : y = x := by
        injection hpq
      have hps : ps ++ q = xs := by
        injection hpq with h1 h2
      subst hy
      cases tr with
      | node c f =>
        cases hg : f y with
        | some ch =>
          simp only [walkAux, MTree.getChild, hg]
          obtain ⟨u, hu1, hu2⟩ := ih ps q ch ctr hps
          refine ⟨u, ?_, hu2⟩
          simp only [subAt, MTree.setChild, MTree.getChild, if_pos rfl]
          exact hu1
        | none =>
          simp only [walkAux, MTree.getChild, hg]
          obtain ⟨u, hu1, hu2⟩ := ih ps q _
            (if y = h then ctr else ctr + 1) hps
          refine ⟨u, ?_, hu2⟩
          simp only [subAt, MTree.setChild, MTree.getChild, if_pos rfl]
          exact hu1

theorem walkAux_present (h : Nat) :
    ∀ (p : List Nat) (tr u : MTree) (ctr : Nat), subAt tr p = some u →
      walkAux h p tr ctr = (u.cellId, tr, ctr) := by
  intro p
  induction p with
  | nil =>
    intro tr u ctr hu
    simp only [subAt] at hu
    cases hu
    rfl
  | cons x ps ih =>
    intro tr u ctr hu
    cases tr with
    | node c f =>
      cases hg : f x with
      | some ch =>
        simp only [subAt, MTree.getChild, hg] at hu
        simp only [walkAux, MTree.getChild, hg]
        rw [ih ch u ctr hu]
        rw [setChild_of_getChild (MTree.node c f) x ch hg]
      | none =>
        simp only [subAt, MTree.getChild, hg] at hu
        exact Option.noConfusion hu

theorem canonTail_of_const (h : Nat) :
    ∀ ts : List Nat, (∀ i, ts.getD i h = h) → canonTail h ts = [] := by
  intro ts
  induction ts with
  | nil => intro _; rfl
  | cons x xs ih =>
    intro hall
    have hx : x = h := hall 0
    have hxs : ∀ i, xs.getD i h = h := fun i => hall (i + 1)
    simp only [canonTail, ih hxs, if_pos hx]

theorem canonTail_congr (h : Nat) :
    ∀ t₁ t₂ : List Nat, (∀ i, t₁.getD i h = t₂.getD i h) →
      canonTail h t₁ = canonTail h t₂ := by
  intro t₁
  induction t₁ with
  | nil =>
    intro t₂ hst
    rw [canonTail, canonTail_of_const h t₂ fun i => ((hst i).symm.trans (List.getD_nil))]
  | cons x xs ih =>
    intro t₂ hst
    cases t₂ with
    | nil =>
      rw [canonTail_of_const h (x :: xs) fun i => (hst i).trans List.getD_nil,
        canonTail]
    | cons y ys =>
      have hxy : x = y := by
        have := hst 0
        simpa using this
      have htl : ∀ i, xs.getD i h = ys.getD i h := fun i => by
        have := hst (i + 1)
        simpa using this
      subst hxy
      simp only [canonTail, ih ys htl]

theorem canonTail_decomp (h : Nat) :
    ∀ ts : List Nat, ∃ k, canonTail h ts ++ List.replicate k h = ts := by
  intro ts
  induction ts with
  | nil => exact ⟨0, rfl⟩
  | cons x xs ih =>
    obtain ⟨k, hk⟩ := ih
    cases hz : canonTail h xs with
    | nil =>
      rw [hz] at hk
      simp only [List.nil_append] at hk
      by_cases hx : x = h
      · refine ⟨k + 1, ?_⟩
        simp only [canonTail, hz, if_pos hx]
        rw [List.nil_append, List.replicate_succ, hx, hk]
      · refine ⟨k, ?_⟩
        simp only [canonTail, hz, if_neg hx]
        simp [hk]
    | cons z zs =>
      refine ⟨k, ?_⟩
      simp only [canonTail, hz]
      rw [hz] at hk
      rw [List.cons_append, hk]

theorem memInv_init : MemInv initMemory := fun h => shareInv_leaf h h

theorem update_memptr_eval (n : Number) (S : Memory) (hn : n.memptr = none) :
    update_memptr n S
      = ((walkAux n.head n.tail (S.root n.head) S.ctr).1,
         { root := fun y => if y = n.head
               then (walkAux n.head n.tail (S.root n.head) S.ctr).2.1
               else S.root y
           ctr := (walkAux n.head n.tail (S.root n.head) S.ctr).2.2 }) := by
  unfold update_memptr
  rw [hn]

theorem mask80 : ∀ b < 256, ((b &&& 0x80 = 0) ↔ b ≤ 0x7F) := by decide

theorem maskC0 : ∀ b < 256, ((b &&& 0xE0 = 0xC0) ↔ (0xC0 ≤ b ∧ b ≤ 0xDF)) := by
  decide

theorem maskE0 : ∀ b < 256, ((b &&& 0xF0 = 0xE0) ↔ (0xE0 ≤ b ∧ b ≤ 0xEF)) := by
  decide

theorem maskF8 : ∀ b < 256, ((b &&& 0xF8 = 0xF0) ↔ (0xF0 ≤ b ∧ b ≤ 0xF7)) := by
  decide

theorem maskCont : ∀ b < 256, ((b &&& 0xC0 = 0x80) ↔ contOK b) := by decide

theorem read_invalid_iff :
    ∀ bs : List Nat, (∀ b ∈ bs, b < 256) →
      (read_utf8_character bs = ReadResult.invalid ↔ structInvalid bs) := by
  intro bs hb
  match bs with
  | [] => simp [read_utf8_character, structInvalid]
  | b :: rest =>
    have hblt : b < 256 := hb b (by simp)
    have h80 := mask80 b hblt
    have hC0 := maskC0 b hblt
    have hE0 := maskE0 b hblt
    have hF8 := maskF8 b hblt
    by_cases hA : b ≤ 0x7F
    · have hm : b &&& 0x80 = 0 := h80.2 hA
      simp [read_utf8_character, structInvalid, hm, hA]
    · have h80' : ¬ (b &&& 0x80 = 0) := fun h => hA (h80.1 h)
      by_cases hB : 0xC0 ≤ b ∧ b ≤ 0xDF
      · have hm : b &&& 0xE0 = 0xC0 := hC0.2 hB
        cases rest with
        | nil => simp [read_utf8_character, structInvalid, h80', hm, hA, hB]
        | cons b2 rest2 =>
          have hc2 := maskCont b2 (hb b2 (by simp))
          by_cases hcont : contOK b2
          · have hm2 : b2 &&& 0xC0 = 0x80 := hc2.2 hcont
            simp [read_utf8_character, structInvalid, h80', hm, hA, hB, hm2,
              hcont]
          · have hm2 : ¬ (b2 &&& 0xC0 = 0x80) := fun h => hcont (hc2.1 h)
            simp [read_utf8_character, structInvalid, h80', hm, hA, hB, hm2,
              hcont]
      · have hB' : ¬ (b &&& 0xE0 = 0xC0) := fun h => hB (hC0.1 h)
        by_cases hC : 0xE0 ≤ b ∧ b ≤ 0xEF
        · have hm : b &&& 0xF0 = 0xE0 := hE0.2 hC
          cases rest with
          | nil => simp [read_utf8_character, structInvalid, h80', hB', hm,
              hA, hB, hC]
          | cons b2 rest2 =>
            have hc2 := maskCont b2 (hb b2 (by simp))
            by_cases hcont2 : contOK b2
            · have hm2 : b2 &&& 0xC0 = 0x80 := hc2.2 hcont2
              cases rest2 with
              | nil => simp [read_utf8_character, structInvalid, h80', hB',
                  hm, hA, hB, hC, hm2, hcont2]
              | cons b3 rest3 =>
                have hc3 := maskCont b3 (hb b3 (by simp))
                by_cases hcont3 : contOK b3
                · have hm3 : b3 &&& 0xC0 = 0x80 := hc3.2 hcont3
                  simp [read_utf8_character, structInvalid, h80', hB', hm,
                    hA, hB, hC, hm2, hcont2, hm3, hcont3]
                · have hm3 : ¬ (b3 &&& 0xC0 = 0x80) := fun h => hcont3 (hc3.1 h)
                  simp [read_utf8_character, structInvalid, h80', hB', hm,
                    hA, hB, hC, hm2, hcont2, hm3, hcont3]
            · have hm2 : ¬ (b2 &&& 0xC0 = 0x80) := fun h => hcont2 (hc2.1 h)
              simp [read_utf8_character, structInvalid, h80', hB', hm, hA,
                hB, hC, hm2, hcont2]
        · have hC' : ¬ (b &&& 0xF0 = 0xE0) := fun h => hC (hE0.1 h)
          by_cases hD : 0xF0 ≤ b ∧ b ≤ 0xF7
          · have hm : b &&& 0xF8 = 0xF0 := hF8.2 hD
            cases rest with
            | nil => simp [read_utf8_character, structInvalid, h80', hB',
                hC', hm, hA, hB, hC, hD]
            | cons b2 rest2 =>
              have hc2 := maskCont b2 (hb b2 (by simp))
              by_cases hcont2 : contOK b2
              · have hm2 : b2 &&& 0xC0 = 0x80 := hc2.2 hcont2
                cases rest2 with
                | nil => simp [read_utf8_character, structInvalid, h80',
                    hB', hC', hm, hA, hB, hC, hD, hm2, hcont2]
                | cons b3 rest3 =>
                  have hc3 := maskCont b3 (hb b3 (by simp))
                  by_cases hcont3 : contOK b3
                  · have hm3 : b3 &&& 0xC0 = 0x80 := hc3.2 hcont3
                    cases rest3 with
                    | nil => simp [read_utf8_character, structInvalid, h80',
                        hB', hC', hm, hA, hB, hC, hD, hm2, hcont2, hm3,
                        hcont3]
                    | cons b4 rest4 =>
                      have hc4 := maskCont b4 (hb b4 (by simp))
                      by_cases hcont4 : contOK b4
                      · have hm4 : b4 &&& 0xC0 = 0x80 := hc4.2 hcont4
                        simp [read_utf8_character, structInvalid, h80', hB',
                          hC', hm, hA, hB, hC, hD, hm2, hcont2, hm3, hcont3,
                          hm4, hcont4]
                      · have hm4 : ¬ (b4 &&& 0xC0 = 0x80) :=
                          fun h => hcont4 (hc4.1 h)
                        simp [read_utf8_character, structInvalid, h80', hB',
                          hC', hm, hA, hB, hC, hD, hm2, hcont2, hm3, hcont3,
                          hm4, hcont4]
                  · have hm3 : ¬ (b3 &&& 0xC0 = 0x80) :=
                      fun h => hcont3 (hc3.1 h)
                    simp [read_utf8_character, structInvalid, h80', hB',
                      hC', hm, hA, hB, hC, hD, hm2, hcont2, hm3, hcont3]
              · have hm2 : ¬ (b2 &&& 0xC0 = 0x80) := fun h => hcont2 (hc2.1 h)
                simp [read_utf8_character, structInvalid, h80', hB', hC',
                  hm, hA, hB, hC, hD, hm2, hcont2]
          · have hD' : ¬ (b &&& 0xF8 = 0xF0) := fun h => hD (hF8.1 h)
            simp [read_utf8_character, structInvalid, h80', hB', hC', hD',
              hA, hB, hC, hD]

theorem shift_and_lt (b mask sh : Nat) (h : mask * 2 ^ sh < 2 ^ 21) :
    (b &&& mask) <<< sh < 2 ^ 21 := by
  rw [Nat.shiftLeft_eq]
  calc (b &&& mask) * 2 ^ sh ≤ mask * 2 ^ sh :=
        Nat.mul_le_mul_right _ Nat.and_le_right
    _ < 2 ^ 21 := h

theorem read_utf8_bound :
    ∀ bs : List Nat, (∀ b ∈ bs, b < 256) →
      readBound (read_utf8_character bs) := by
  intro bs hb
  have hor2 : ∀ x y : Nat, x < 2 ^ 21 → y < 2 ^ 21 → (x ||| y) ≤ 0x1FFFFF := by
    intro x y hx hy
    have := Nat.or_lt_two_pow hx hy
    omega
  match bs with
  | [] => simp [read_utf8_character, readBound]
  | b :: rest =>
    have hblt : b < 256 := hb b (by simp)
    simp only [read_utf8_character]
    split_ifs with h1 h2 h3 h4
    · simp only [readBound]
      omega
    · cases rest with
      | nil => simp [readBound]
      | cons b2 rest2 =>
        dsimp only
        split_ifs with hc
        · simp [readBound]
        · simp only [readBound]
          exact hor2 _ _ (shift_and_lt b 0x1F 6 (by norm_num))
            (lt_of_le_of_lt Nat.and_le_right (by norm_num))
    · cases rest with
      | nil => simp [readBound]
      | cons b2 rest2 =>
        dsimp only
        split_ifs with hc
        · simp [readBound]
        · cases rest2 with
          | nil => simp [readBound]
          | cons b3 rest3 =>
            dsimp only
            split_ifs with hc3
            · simp [readBound]
            · simp only [readBound]
              refine hor2 _ _ (Nat.or_lt_two_pow ?_ ?_)
                (lt_of_le_of_lt Nat.and_le_right (by norm_num))
              · exact shift_and_lt b 0x0F 12 (by norm_num)
              · exact shift_and_lt b2 0x3F 6 (by norm_num)
    · cases rest with
      | nil => simp [readBound]
      | cons b2 rest2 =>
        dsimp only
        split_ifs with hc
        · simp [readBound]
        · cases rest2 with
          | nil => simp [readBound]
          | cons b3 rest3 =>
            dsimp only
            split_ifs with hc3
            · simp [readBound]
            · cases rest3 with
              | nil => simp [readBound]
              | cons b4 rest4 =>
                dsimp only
                split_ifs with hc4
                · simp [readBound]
                · simp only [readBound]
                  refine hor2 _ _
                    (Nat.or_lt_two_pow (Nat.or_lt_two_pow ?_ ?_) ?_)
                    (lt_of_le_of_lt Nat.and_le_right (by norm_num))
                  · exact shift_and_lt b 0x07 18 (by norm_num)
                  · exact shift_and_lt b2 0x3F 12 (by norm_num)
                  · exact shift_and_lt b3 0x3F 6 (by norm_num)
    · simp [readBound]

theorem xlat2Map_range :
    ∀ u < 127, 33 ≤ u → (33 ≤ xlat2Map u ∧ xlat2Map u < 127) := by
  decide

theorem xlatStep_to_number (u : Nat) (h1 : 33 ≤ u) (h2 : u < 127) :
    xlatStep (to_number u) = some (to_number (xlat2Map u)) := by
  have hmem := xlat2Map_range u h2 h1
  have hlt : u < 0x110000 := by omega
  have hu : (to_number u).unicode = (u : Int) := by simp [to_number, hlt]
  have hupd : update_unicode (to_number u) = to_number u := by
    unfold update_unicode
    rw [if_pos (by rw [hu]; omega)]
  have hcond : ¬ ((to_number u).unicode < 33 ∨ 126 < (to_number u).unicode) := by
    rw [hu]
    push_neg
    constructor <;> [exact_mod_cast h1; exact_mod_cast Nat.le_of_lt_succ h2]
  have hok : xlat2 (to_number u)
      = Except.ok
          { head := 0, tail := [], memptr := none
            unicode := (xlat2Map u : Int) } := by
    unfold xlat2
    simp only [hupd]
    rw [if_neg hcond]
    have hhd : (to_number u).head = 0 := rfl
    have hmp : (to_number u).memptr = none := rfl
    rw [hhd, hmp, hu, Int.toNat_natCast]
  have hrep : repair_number_after_xlat2
      { head := 0, tail := [], memptr := none, unicode := (xlat2Map u : Int) }
      = to_number (xlat2Map u) := by
    unfold repair_number_after_xlat2
    rw [if_neg (by simp), if_neg (by simp)]
    unfold to_number
    rw [Int.toNat_natCast, if_pos (by omega)]
  unfold xlatStep
  rw [hok]
  exact congrArg some hrep

theorem xlatIter_to_number :
    ∀ (k u : Nat), 33 ≤ u → u < 127 →
      xlatIter k (to_number u) = some (to_number (xlat2Map^[k] u)) := by
  intro k
  induction k with
  | zero => intro u _ _; simp [xlatIter]
  | succ k ih =>
    intro u h1 h2
    have hmem := xlat2Map_range u h2 h1
    have hstep := xlatStep_to_number u h1 h2
    rw [show xlatIter (k + 1) (to_number u)
        = (match xlatStep (to_number u) with
           | some m => xlatIter k m
           | none => none) from rfl]
    rw [hstep, Function.iterate_succ_apply]
    exact ih (xlat2Map u) hmem.1 hmem.2

theorem seedLoopAux_lengths :
    ∀ (fuel p : Nat) (prev prevprev : Number), 18 ≤ fuel + p →
      (seedLoopAux fuel p prev prevprev).1.length = 18 - p
      ∧ (seedLoopAux fuel p prev prevprev).2.length = 18 - max p 12 := by
  intro fuel
  induction fuel with
  | zero =>
    intro p prev prevprev hp
    constructor <;> simp [seedLoopAux] <;> omega
  | succ fuel ih =>
    intro p prev prevprev hp
    by_cases h18 : p < 18
    · have hrec := ih (p + 1)
        (update_unicode (opr prev prevprev).1) prev (by omega)
      by_cases h12 : p < 12
      · simp only [seedLoopAux, if_pos h18, if_pos h12, List.length_cons]
        constructor
        · rw [hrec.1]; omega
        · rw [hrec.2]; omega
      · simp only [seedLoopAux, if_pos h18, if_neg h12, List.length_cons]
        constructor
        · rw [hrec.1]; omega
        · rw [hrec.2]; omega
    · simp only [seedLoopAux, if_neg h18]
      constructor <;> simp <;> omega

theorem map_eq_zipWith_replicate (ah : Nat) :
    ∀ ds : List Nat,
      ds.map (fun d => oprTrit ah d)
        = List.zipWith oprTrit (List.replicate ds.length ah) ds := by
  intro ds
  induction ds with
  | nil => rfl
  | cons d t ih => simp [List.replicate_succ, ih]

theorem oprLoop_eq_zipWith (ah dh : Nat) :
    ∀ as ds : List Nat,
      oprLoop ah dh as ds
        = List.zipWith oprTrit
            (as ++ List.replicate (max as.length ds.length - as.length) ah)
            (ds ++ List.replicate (max as.length ds.length - ds.length) dh) := by
  intro as
  induction as with
  | nil =>
    intro ds
    simpa using map_eq_zipWith_replicate ah ds
  | cons a as ih =>
    intro ds
    cases ds with
    | nil =>
      have h0 := ih []
      simp only [List.length_nil, Nat.max_zero, Nat.sub_self,
        List.replicate_zero, List.append_nil, Nat.sub_zero,
        List.nil_append] at h0
      simp only [oprLoop, List.length_cons, List.length_nil, Nat.max_zero,
        Nat.sub_self, List.replicate_zero, List.append_nil, Nat.sub_zero,
        List.nil_append, List.replicate_succ, List.zipWith_cons_cons]
      exact congrArg _ h0
    | cons d ds =>
      have h0 := ih ds
      simp only [oprLoop, List.length_cons, Nat.succ_max_succ,
        Nat.succ_sub_succ, List.cons_append, List.zipWith_cons_cons]
      exact congrArg _ h0

end Unshackled

namespace Unshackled

/-! ### Claim theorems -/

/-- C1 (counterexample): the claim's table, rows indexed by the `a`-trit with
row `a=0` equal to `(1,0,0)`, predicts `OPR[0][1] = 0`; but `opr` on the pair
`(a, d)` with `a`'s trit 0 and `d`'s trit 1 stores trit `1` (the source
indexes its flat table by `a + 3·d`, i.e. rows are indexed by the `d`-trit). -/
theorem C1_counterexample :
    (opr ⟨0, [0], none, -2⟩ ⟨0, [1], none, -2⟩).1.tail = [1]
    ∧ oprSpecTrit 0 1 = 0
    ∧ oprTrit 0 1 = 1
    ∧ oprSpecTrit 1 0 = 1
    ∧ oprTrit 1 0 = 0 := by
  exact ⟨rfl, rfl, rfl, rfl, rfl⟩

/-- C1 (amended): crazy-op stores at every position `i` (after extending the
narrower operand with its own head) the trit `OPR[aᵢ][dᵢ]` of the table whose
rows are indexed by the `d`-trit and columns by the `a`-trit (row `d=0` is
`(1,0,0)`, row `d=1` is `(1,0,2)`, row `d=2` is `(2,2,1)`; equivalently
`oprTrit a d = OPR.getD (a + 3·d) 0`), stores the same result into both
operands at every position, applies the same table to the pair of heads,
invalidates both caches, and leaves the two operands value-equal. -/
theorem C1_crazy_op (a d : Number) :
    (opr a d).1 = (opr a d).2
    ∧ (opr a d).1.head = oprTrit a.head d.head
    ∧ (opr a d).1.tail
        = List.zipWith oprTrit
            (a.tail ++ List.replicate
              (max a.tail.length d.tail.length - a.tail.length) a.head)
            (d.tail ++ List.replicate
              (max a.tail.length d.tail.length - d.tail.length) d.head)
    ∧ (opr a d).1.memptr = none
    ∧ (opr a d).1.unicode = -2
    ∧ valEq (opr a d).1 (opr a d).2 := by
  refine ⟨rfl, rfl, ?_, rfl, rfl, rfl, fun i => rfl⟩
  exact oprLoop_eq_zipWith a.head d.head a.tail d.tail

/-- C2 (counterexample): a cell whose Unicode value is 33 at position 0
decodes to `i = 33`, which is not one of the eight instruction codes, yet
the step is not fatal: the validity check only constrains the Unicode value
to `[33,126]`, and the switch's `default` branch makes `i = 33` a no-op, so
execution continues. -/
theorem C2_counterexample :
    classify 33 0 = StepClass.insn 33
    ∧ 33 ∉ instructionSet
    ∧ dispatch 33 = Action.nop
    ∧ classify 33 0 ≠ StepClass.fatal := by
  exact ⟨by decide, by decide, by decide, by decide⟩

/-- C2 (amended): a step is fatal (diagnostic, exit 1) exactly when the
Unicode value of the cell at `C` lies outside `[33,126]`; when the value is
in range but the decoded instruction `i = (unicode + pos) mod 94` is not one
of the eight codes, the step is treated as a no-op and execution
continues. -/
theorem C2_invalid_instruction (u : Int) (p i : Nat)
    (hi : i ∉ instructionSet) :
    (classify u p = StepClass.fatal ↔ (u < 33 ∨ 126 < u))
    ∧ dispatch i = Action.nop := by
  constructor
  · unfold classify
    split_ifs with h
    · simpa using h
    · simpa using h
  · have h4 : i ≠ 4 := by intro h; exact hi (by simp [instructionSet, h])
    have h5 : i ≠ 5 := by intro h; exact hi (by simp [instructionSet, h])
    have h23 : i ≠ 23 := by intro h; exact hi (by simp [instructionSet, h])
    have h39 : i ≠ 39 := by intro h; exact hi (by simp [instructionSet, h])
    have h40 : i ≠ 40 := by intro h; exact hi (by simp [instructionSet, h])
    have h62 : i ≠ 62 := by intro h; exact hi (by simp [instructionSet, h])
    have h81 : i ≠ 81 := by intro h; exact hi (by simp [instructionSet, h])
    simp [dispatch, h4, h5, h23, h39, h40, h62, h81]

/-- C2 (witness): the amended statement at `u = 50`, `pos = 0`, `i = 33`. -/
theorem C2_invalid_instruction_witness :
    (classify 50 0 = StepClass.fatal ↔ ((50 : Int) < 33 ∨ 126 < (50 : Int)))
    ∧ dispatch 33 = Action.nop :=
  C2_invalid_instruction 50 0 33 (by decide)

/-- C4 (counterexample): the 5-byte program `"ba` + backtick + `_^"` (bytes
98, 97, 96, 95, 94) is accepted by the loader with `pos = 5` at end of file,
and the seeding phase then performs only `18 - 5 = 13` synthetic steps, not
18: the loop counter starts at `pos mod 6` and runs to 17, so the number of
steps depends on the position counter at end of file. -/
theorem C4_counterexample :
    loadLoop [98, 97, 96, 95, 94] 0 []
      = some (5, [to_number 98, to_number 97, to_number 96,
                  to_number 95, to_number 94])
    ∧ (seedPhase 5 (to_number 94) (to_number 95)).1.length = 13
    ∧ (13 : Nat) ≠ 18 := by
  exact ⟨by decide, by decide, by decide⟩

/-- C4 (amended): after end of file the loader performs `18 − (pos mod 6)`
synthetic initialization steps (the loop counter runs from `pos mod 6` to
17), each computing the crazy-op of clones of the last two populated cells
and storing the result at the next address; the companion results of
counters 12 through 17 — always reached, since `pos mod 6 < 12` — become
the six initial values. -/
theorem C4_seed_steps (p : Nat) (prev prevprev : Number) :
    (seedPhase p prev prevprev).1.length = 18 - p % 6
    ∧ (seedPhase p prev prevprev).2.length = 6 := by
  have h := seedLoopAux_lengths 18 (p % 6) prev prevprev (by omega)
  have hlt : p % 6 < 6 := Nat.mod_lt _ (by omega)
  unfold seedPhase
  refine ⟨h.1, ?_⟩
  rw [h.2]
  omega

/-- C7: for a number of width ≥ 1 and `2 ≤ m ≤ 29524`, `mod` returns exactly
`(Σᵢ (tail[i] − head)·3^i + 29524·head) mod m`, lies in `[0, m)`, and is
width-independent: a value-equal number (e.g. one with extra most-significant
trits equal to the head) yields the same result, so in particular the
callers' moduli `m ∈ {6, 564}` are served correctly for every width. -/
theorem C7_mod (n n' : Number) (m : Nat) (h2 : 2 ≤ m) (h29 : m ≤ 29524)
    (hh : n.head ≤ 2) (hw : 1 ≤ n.tail.length)
    (heq : valEq n n') (hw' : 1 ≤ n'.tail.length) :
    ((mod n m : Nat) : ℤ)
      = ((∑ i ∈ Finset.range n.tail.length,
            ((n.tail.getD i 0 : ℤ) - n.head) * 3 ^ i) + 29524 * n.head) % m
    ∧ mod n m < m
    ∧ mod n' m = mod n m := by
  have hh' : n'.head ≤ 2 := heq.1 ▸ hh
  have hm : 0 < m := by omega
  have hlt : mod n m < m :=
    modAux_lt m n.head hm n.tail _ _
      (by intro h0; rw [h0] at hw; simp at hw)
  have hlt' : mod n' m < m :=
    modAux_lt m n'.head hm n'.tail _ _
      (by intro h0; rw [h0] at hw'; simp at hw')
  refine ⟨mod_eq_spec n m h2 hh hw, hlt, ?_⟩
  have hspec := mod_eq_spec n m h2 hh hw
  have hspec' := mod_eq_spec n' m h2 hh' hw'
  have hF : (∑ i ∈ Finset.range n'.tail.length,
        ((n'.tail.getD i 0 : ℤ) - n'.head) * 3 ^ i) + 29524 * n'.head
      = (∑ i ∈ Finset.range n.tail.length,
          ((n.tail.getD i 0 : ℤ) - n.head) * 3 ^ i) + 29524 * n.head := by
    have hL : n.tail.length ≤ max n.tail.length n'.tail.length :=
      Nat.le_max_left _ _
    have hL' : n'.tail.length ≤ max n.tail.length n'.tail.length :=
      Nat.le_max_right _ _
    rw [specSumZ_ext n.head n.tail _ hL, specSumZ_ext n'.head n'.tail _ hL']
    rw [heq.1]
    congr 1
    refine Finset.sum_congr rfl fun i _ => ?_
    have := heq.2 i
    unfold tritAt at this
    rw [heq.1] at this
    rw [this]
  have : ((mod n' m : Nat) : ℤ) = ((mod n m : Nat) : ℤ) := by
    rw [hspec, hspec', hF]
  exact_mod_cast this

/-- C7 (witness): the statement at `n = ⟨head 1, tail [2,1]⟩`,
`n' = ⟨head 1, tail [2,1,1]⟩` (one extra head trit), `m = 6`. -/
theorem C7_mod_witness :
    ((mod ⟨1, [2, 1], none, -2⟩ 6 : Nat) : ℤ)
      = ((∑ i ∈ Finset.range 2,
            ((([2, 1] : List Nat).getD i 0 : ℤ) - 1) * 3 ^ i) + 29524 * 1) % 6
    ∧ mod ⟨1, [2, 1], none, -2⟩ 6 < 6
    ∧ mod ⟨1, [2, 1, 1], none, -2⟩ 6 = mod ⟨1, [2, 1], none, -2⟩ 6 :=
  C7_mod ⟨1, [2, 1], none, -2⟩ ⟨1, [2, 1, 1], none, -2⟩ 6
    (by norm_num) (by norm_num) (by norm_num) (by norm_num)
    ⟨rfl, fun i => by
      match i with
      | 0 => rfl
      | 1 => rfl
      | 2 => rfl
      | (j + 3) => rfl⟩
    (by norm_num)

/-- C8: `increment` adds exactly one: on every truncation window the value
grows by one modulo `3^w` (so two increments are observationally the value
two greater), carries propagate from position 0 with each trit becoming
`(t+1) mod 3`, and when the carry passes the most-significant tail trit the
head behaves as claimed — one trit `head+1` is appended unless `head = 2`,
in which case the head wraps to 0 without appending (witnessed here through
the resulting head and width). -/
theorem C8_increment (next next2 : Nat → Option Nat) (n : Number) (w : Nat)
    (hv : ValidNumber n) :
    trunc (increment next n) w = (trunc n w + 1) % 3 ^ w
    ∧ trunc (increment next2 (increment next n)) w = (trunc n w + 2) % 3 ^ w
    ∧ (increment next n).head
        = (if n.head = 2 ∧ (∀ t ∈ n.tail, t = 2) then 0 else n.head)
    ∧ (increment next n).tail.length
        = (if (∀ t ∈ n.tail, t = 2) ∧ n.head ≠ 2 then n.tail.length + 1
           else n.tail.length) := by
  obtain ⟨hh, hts⟩ := hv
  have h1 : trunc (increment next n) w = (trunc n w + 1) % 3 ^ w :=
    trunc_increment next n.tail n.head n.memptr n.unicode hh hts w
  have hv1 : ValidNumber (increment next n) := increment_valid next n ⟨hh, hts⟩
  have h2 : trunc (increment next2 (increment next n)) w
      = (trunc (increment next n) w + 1) % 3 ^ w :=
    trunc_increment next2 (increment next n).tail (increment next n).head
      (increment next n).memptr (increment next n).unicode hv1.1 hv1.2 w
  refine ⟨h1, ?_, increment_head next n ⟨hh, hts⟩,
    increment_length next n ⟨hh, hts⟩⟩
  rw [h2, h1, Nat.mod_add_mod]

/-- C8 (witness): the statement at `n = ⟨head 2, tail [2]⟩` (the `-1`-like
value whose increment wraps the head), `w = 3`. -/
theorem C8_increment_witness :
    trunc (increment (fun _ => none) ⟨2, [2], none, -2⟩) 3
        = (trunc ⟨2, [2], none, -2⟩ 3 + 1) % 3 ^ 3
    ∧ trunc (increment (fun _ => none)
          (increment (fun _ => none) ⟨2, [2], none, -2⟩)) 3
        = (trunc ⟨2, [2], none, -2⟩ 3 + 2) % 3 ^ 3
    ∧ (increment (fun _ => none) ⟨2, [2], none, -2⟩).head
        = (if (2 : Nat) = 2 ∧ (∀ t ∈ ([2] : List Nat), t = 2) then 0 else 2)
    ∧ (increment (fun _ => none) ⟨2, [2], none, -2⟩).tail.length
        = (if (∀ t ∈ ([2] : List Nat), t = 2) ∧ (2 : Nat) ≠ 2
           then ([2] : List Nat).length + 1 else ([2] : List Nat).length) :=
  C8_increment (fun _ => none) (fun _ => none) ⟨2, [2], none, -2⟩ 3 (by decide)

/-- C6: the memory-tree lookup resolves any two value-equal numbers — same
head, trit streams equal after extending each tail infinitely with its head,
in particular differing widths whose extra most-significant trits equal the
head — to the same memory cell, because a child node reached by a trit
equal to the head shares its parent's cell.  Stated for consecutive lookups
with unset caches, from any memory satisfying the sharing invariant. -/
theorem C6_memory_tree (S : Memory) (m n : Number)
    (hS : MemInv S) (hm : m.memptr = none) (hn : n.memptr = none)
    (heq : valEq m n) :
    (update_memptr n (update_memptr m S).2).1 = (update_memptr m S).1 := by
  obtain ⟨hhead, hstream⟩ := heq
  have hR : ShareInv m.head (S.root m.head) := hS m.head
  obtain ⟨k1, hk1⟩ := canonTail_decomp m.head m.tail
  obtain ⟨k2, hk2⟩ := canonTail_decomp m.head n.tail
  have hcanon : canonTail m.head n.tail = canonTail m.head m.tail := by
    apply canonTail_congr
    intro i
    have h1 := (hstream i).symm
    simp only [tritAt] at h1
    rw [← hhead] at h1
    exact h1
  have c1 : (walkAux m.head m.tail (S.root m.head) S.ctr).1
      = (walkAux m.head (canonTail m.head m.tail) (S.root m.head) S.ctr).1 := by
    conv_lhs => rw [← hk1]
    exact walkAux_append_replicate m.head (canonTail m.head m.tail) k1
      (S.root m.head) S.ctr hR
  obtain ⟨u, hu1, hu2⟩ := walkAux_prefix m.head m.tail
    (canonTail m.head m.tail) (List.replicate k1 m.head)
    (S.root m.head) S.ctr hk1
  have hR1 : ShareInv m.head (walkAux m.head m.tail (S.root m.head) S.ctr).2.1 :=
    walkAux_shareInv m.head m.tail (S.root m.head) S.ctr hR
  rw [update_memptr_eval m S hm, update_memptr_eval n _ hn]
  dsimp only
  rw [if_pos hhead.symm, ← hhead]
  conv_lhs => rw [← hk2, hcanon]
  rw [walkAux_append_replicate m.head (canonTail m.head m.tail) k2 _ _ hR1]
  rw [walkAux_present m.head (canonTail m.head m.tail) _ u _ hu1]
  rw [c1]
  exact hu2

/-- C6 (witness): the statement at two value-equal numbers of different
widths, `⟨head 0, tail [1,0]⟩` and `⟨head 0, tail [1]⟩`, looked up in the
initial memory. -/
theorem C6_memory_tree_witness :
    (update_memptr ⟨0, [1], none, -2⟩
        (update_memptr ⟨0, [1, 0], none, -2⟩ initMemory).2).1
      = (update_memptr ⟨0, [1, 0], none, -2⟩ initMemory).1 :=
  C6_memory_tree initMemory ⟨0, [1, 0], none, -2⟩ ⟨0, [1], none, -2⟩
    memInv_init rfl rfl
    ⟨rfl, fun i => by
      match i with
      | 0 => rfl
      | 1 => rfl
      | (j + 2) => rfl⟩

/-- C9 (counterexample): applying `xlat2` (with repair) 94 times to the
value 33 yields 56, not 33, so 94-fold application is not the identity: the
permutation's cycle lengths are 68, 6, 5, 4, 9 and 2, none of which except 2
divides 94. -/
theorem C9_counterexample :
    xlatIter 94 (to_number 33) = some (to_number 56)
    ∧ to_number 56 ≠ to_number 33
    ∧ xlat2Map^[94] 33 = 56 := by
  refine ⟨?_, by decide, by decide⟩
  rw [xlatIter_to_number 94 33 (by norm_num) (by norm_num)]
  rw [show xlat2Map^[94] 33 = 56 from by decide]

/-- C9 (amended): the xlat2 substitution restricted to Unicode values in
`[33,127)` is a permutation of those 94 positions (pairwise distinct images
that cover exactly `[33,126]`), and each single application followed by
repair of the trit tail maps the number of value `u` exactly to the number
of value `xlat2Map u` (so the repair step preserves the represented value);
however, applying it 94 times is not the identity in general. -/
theorem C9_xlat2 (u : Nat) (h1 : 33 ≤ u) (h2 : u < 127) :
    xlat2Images.Nodup
    ∧ xlat2Images.toFinset = Finset.Icc 33 126
    ∧ xlatStep (to_number u) = some (to_number (xlat2Map u))
    ∧ 33 ≤ xlat2Map u ∧ xlat2Map u < 127 := by
  have hmem := xlat2Map_range u h2 h1
  exact ⟨by decide, by decide, xlatStep_to_number u h1 h2, hmem.1, hmem.2⟩

/-- C9 (witness): the amended statement at `u = 65`. -/
theorem C9_xlat2_witness :
    xlat2Images.Nodup
    ∧ xlat2Images.toFinset = Finset.Icc 33 126
    ∧ xlatStep (to_number 65) = some (to_number (xlat2Map 65))
    ∧ 33 ≤ xlat2Map 65 ∧ xlat2Map 65 < 127 :=
  C9_xlat2 65 (by norm_num) (by norm_num)

/-- C10: the UTF-8 input decoder fails only on structurally invalid input —
a lead byte outside the 1–4-byte bit patterns, or a missing or malformed
continuation byte — and does not enforce the Unicode upper bound on input:
decoded values may reach `0x1FFFFF`, and in particular the well-formed
4-byte sequence `F4 90 80 80` decodes to `0x110000` without error, a value
the output encoder `print_utf8` rejects as fatal. -/
theorem C10_utf8_decoder (bs : List Nat) (hb : ∀ b ∈ bs, b < 256) :
    (read_utf8_character bs = ReadResult.invalid ↔ structInvalid bs)
    ∧ readBound (read_utf8_character bs)
    ∧ read_utf8_character [0xF4, 0x90, 0x80, 0x80] = ReadResult.chr 0x110000
    ∧ print_utf8 0x110000 = Except.error () :=
  ⟨read_invalid_iff bs hb, read_utf8_bound bs hb, by decide, rfl⟩

/-- C10 (witness): the statement at the byte sequence `F4 90 80 80`. -/
theorem C10_utf8_decoder_witness :
    (read_utf8_character [0xF4, 0x90, 0x80, 0x80] = ReadResult.invalid
      ↔ structInvalid [0xF4, 0x90, 0x80, 0x80])
    ∧ readBound (read_utf8_character [0xF4, 0x90, 0x80, 0x80])
    ∧ read_utf8_character [0xF4, 0x90, 0x80, 0x80] = ReadResult.chr 0x110000
    ∧ print_utf8 0x110000 = Except.error () :=
  C10_utf8_decoder [0xF4, 0x90, 0x80, 0x80] (by decide)

/-- C5 (code bug): the value placed in register `A` by the `in` instruction
on reading a newline violates the Unicode-cache invariant: the source builds
`to_number(1)` (cache 1) and then overwrites the head with `T2` without
invalidating the cache, so the cache is neither `-2` nor `-1` although the
head is nonzero.  (The parallel EOF branch does correct the cache to `-1`,
and the `unicode` field's own documentation calls `-1` "not a unicode
codepoint", so this branch is a slip in the code.) -/
theorem C5_newline_cache_violation :
    (instr_in 10).head = 2
    ∧ (instr_in 10).unicode = 1
    ∧ ¬ unicodeCacheOK (instr_in 10) := by
  exact ⟨by decide, by decide, by decide⟩

/-- C3 (counterexample): on `head = 0`, `tail = [1,2]`, target width 2, the
source's rotate-right yields tail `[2,1]`: the removed least-significant trit
`1` reappears at the most-significant end (the trit list is cyclic and the
width is not decremented), while the claim's "not reinserted" reading
predicts tail `[2]`; the two results differ in value at position 1. -/
theorem C3_counterexample :
    (rotate_r ⟨0, [1, 2], none, -2⟩ 2).tail = [2, 1]
    ∧ (rotSpecClaim ⟨0, [1, 2], none, -2⟩ 2).tail = [2]
    ∧ tritAt (rotate_r ⟨0, [1, 2], none, -2⟩ 2) 1 = 1
    ∧ tritAt (rotSpecClaim ⟨0, [1, 2], none, -2⟩ 2) 1 = 0
    ∧ ¬ valEq (rotate_r ⟨0, [1, 2], none, -2⟩ 2)
        (rotSpecClaim ⟨0, [1, 2], none, -2⟩ 2) := by
  refine ⟨rfl, rfl, rfl, rfl, fun h => ?_⟩
  have := h.2 1
  simp [tritAt, rotate_r, rotSpecClaim] at this

/-- C3 (amended): rotate-right pads the most-significant end of the tail with
head trits until `width ≥ W` and then rotates the padded tail cyclically one
position to the right: position `i` receives the old trit `i+1` and the old
least-significant trit IS reinserted at the most-significant end.  The head
is unchanged, the resulting width is `max width W`, and the memptr and
Unicode caches are invalidated. -/
theorem C3_rotate_r (n : Number) (W : Nat) :
    rotate_r n W
      = { head := n.head
          tail := (n.tail ++ List.replicate (W - n.tail.length) n.head).drop 1
                    ++ (n.tail ++ List.replicate (W - n.tail.length) n.head).take 1
          memptr := none
          unicode := -2 }
    ∧ (rotate_r n W).tail.length = max n.tail.length W := by
  constructor
  · unfold rotate_r
    cases h : n.tail ++ List.replicate (W - n.tail.length) n.head with
    | nil => simp
    | cons x xs => simp
  · unfold rotate_r
    cases h : n.tail ++ List.replicate (W - n.tail.length) n.head with
    | nil =>
      have hl := congrArg List.length h
      simp at hl
      obtain ⟨h1, h2⟩ := hl
      simp [h1] at h2 ⊢
      omega
    | cons x xs =>
      have hl := congrArg List.length h
      simp at hl ⊢
      omega

end Unshackled
